import Mathlib

/-!
# Verification of `window_titles` (macOS variant, `src/apple.rs`)

A shallow embedding of the quote-aware scanner `split` and of the
`Connection` provider from `src/apple.rs`, together with theorems
settling the specification claims about them.

Strings are modelled as `List Char` (one entry per Unicode scalar
value), matching the Rust code's iteration by `char_indices`, which
also visits one Unicode scalar value at a time.
-/

/-- Embeds `.replace("\\\"", "\"")` from `src/apple.rs` line 63: the
leftmost-first, non-overlapping replacement of every two-character
sequence backslash-quote by a literal quote.  (The Rust replacement is
byte-level, but since both pattern bytes are ASCII and ASCII bytes
never occur inside a multi-byte UTF-8 sequence, it coincides with this
codepoint-level replacement.) -/
def unescape : List Char → List Char
  | [] => []
  | [c] => [c]
  | c :: d :: rest =>
    if c = '\\' ∧ d = '"' then '"' :: unescape rest
    else c :: unescape (d :: rest)

/-- Embeds the scanning loops of `split` (`src/apple.rs` lines 47-70) as a
small-step state machine over the remaining input.  State `none` is the
outer loop (outside a quoted segment): a quote enters a segment, any other
character is skipped.  State `some acc` is the inner loop (inside a quoted
segment), `acc` being `title_chars`: a quote whose preceding accumulated
character is not a backslash closes the segment and emits the unescaped
title; any other character is accumulated.  Exhausting the input inside a
segment discards the accumulator (`found_end_quote` stays false). -/
def scan : Option (List Char) → List Char → List (List Char)
  | _, [] => []
  | none, c :: rest => if c = '"' then scan (some []) rest else scan none rest
  | some acc, c :: rest =>
    if c = '"' ∧ acc.getLast? ≠ some '\\' then unescape acc :: scan none rest
    else scan (some (acc ++ [c])) rest

/-- Embeds `fn split` from `src/apple.rs` lines 44-72. -/
def split (string : List Char) : List (List Char) := scan none string

/-- A list of characters containing no double quote: such characters are
structural/junk text outside quoted segments. -/
def noQuote (l : List Char) : Bool := l.all (fun c => decide (c ≠ '"'))

/-- The raw content of a well-formed quoted segment: every double quote in
it is immediately preceded by a literal backslash (so it does not close the
segment early), and it does not end in a literal backslash (so the closing
quote that follows it is recognised).  Empty content is well formed. -/
def goodSeg : List Char → Bool
  | [] => true
  | [c] => decide (c ≠ '"') && decide (c ≠ '\\')
  | c :: d :: rest =>
    if c = '"' then false
    else if c = '\\' then
      if d = '"' then goodSeg rest else goodSeg (d :: rest)
    else goodSeg (d :: rest)

/-- Builds an input string out of leading junk and a sequence of quoted
segments, each given as (raw content, junk following its closing quote). -/
def encodeInput : List Char → List (List Char × List Char) → List Char
  | j0, [] => j0
  | j0, (s, j) :: rest => j0 ++ '"' :: s ++ '"' :: encodeInput j rest

/-- Every segment description in the list is well formed: its raw content
satisfies `goodSeg` and the junk after its closing quote has no quote. -/
def wellFormed (segs : List (List Char × List Char)) : Bool :=
  segs.all (fun p => goodSeg p.1 && noQuote p.2)

/-- The inner scanning loop, started with accumulator `acc`, never finds an
unescaped closing quote anywhere in `t`: the segment stays open to the end
of the input. -/
def neverCloses : List Char → List Char → Bool
  | _, [] => true
  | acc, c :: rest =>
    if c = '"' ∧ acc.getLast? ≠ some '\\' then false
    else neverCloses (acc ++ [c]) rest

/-- Re-encoding of a decoded title: each literal double quote is written as
the two-character sequence backslash-quote. -/
def escapeQuotes : List Char → List Char
  | [] => []
  | c :: rest =>
    if c = '"' then '\\' :: '"' :: escapeQuotes rest else c :: escapeQuotes rest

/-- Re-encoding of a title list: each title is wrapped in double quotes with
its internal double quotes escaped, and the results are concatenated. -/
def reencode (ts : List (List Char)) : List Char :=
  (ts.map (fun t => '"' :: escapeQuotes t ++ ['"'])).flatten

/-- Decides whether `needle` occurs as a contiguous substring of `hay`,
modelling Rust's `str::contains` with a string pattern.  (Rust matches
bytes, but for the ASCII-only needle used in `src/apple.rs` a byte-level
occurrence in UTF-8 text coincides with a codepoint-level occurrence.) -/
def startsWithList : List Char → List Char → Bool
  | _, [] => true
  | [], _ :: _ => false
  | c :: cs, d :: ds => decide (c = d) && startsWithList cs ds

/-- See `startsWithList`: substring containment. -/
def containsSub (needle : List Char) : List Char → Bool
  | [] => startsWithList [] needle
  | c :: t => startsWithList (c :: t) needle || containsSub needle t

/-- The fixed substring `PERMISSION_ERROR` from `src/apple.rs` line 7. -/
def permissionError : List Char :=
  ['o', 's', 'a', 's', 'c', 'r', 'i', 'p', 't', ' ', 'i', 's', ' ', 'n',
   'o', 't', ' ', 'a', 'l', 'l', 'o', 'w', 'e', 'd', ' ', 'a', 's', 's',
   'i', 's', 't', 'i', 'v', 'e', ' ', 'a', 'c', 'c', 'e', 's', 's']

/-- The captured result of the spawned `osascript` process: exit status and
both output streams (each stream already decoded to text, as by
`String::from_utf8_lossy`). -/
structure CommandOutput where
  status : Int
  stdout : List Char
  stderr : List Char

/-- The error enum `WindowTitleError` from `src/apple.rs` lines 29-33. -/
inductive WindowTitleError where
  | NoAccessibilityPermission
  | ExecuteFailed
deriving DecidableEq

/-- The zero-field `Connection` struct from `src/apple.rs` line 9. -/
structure Connection where

/-- Embeds `Connection::new` (`src/apple.rs` line 11): `Ok(Self)`.  The
crate-level `Result` error type (defined outside `src/`) is irrelevant
here since the macOS variant always succeeds; `WindowTitleError` stands in
for it. -/
def Connection.new : Except WindowTitleError Connection := Except.ok ⟨⟩

/-- Embeds `Connection::window_titles` (`src/apple.rs` lines 12-26) as a
function of the outcome of spawning the external tool, the only effectful
step: `none` models a spawn error (`Command::output` returned `Err`),
`some out` models a captured `Output`.  On a spawn error it returns
`ExecuteFailed`; otherwise, if stderr contains the fixed permission
substring it returns `NoAccessibilityPermission`, and in every other case
it returns the titles parsed from stdout. -/
def window_titles (spawnResult : Option CommandOutput) :
    Except WindowTitleError (List (List Char)) :=
  match spawnResult with
  | none => Except.error WindowTitleError.ExecuteFailed
  | some out =>
    if containsSub permissionError out.stderr then
      Except.error WindowTitleError.NoAccessibilityPermission
    else
      Except.ok (split out.stdout)

-- Sanity checks against the repository's own tests.
example :
    split ['{', '{', '}', ',', ' ', '{', '"', '0', '"', '}', ',', ' ', '{',
      '"', '1', '"', ',', ' ', '"', '2', '"', '}', '}'] =
    [['0'], ['1'], ['2']] := by decide

example :
    split ['{', '"', '\\', '"', ' ', '-', ' ', 'B', 'r', 'a', 'v', 'e', '"',
      ',', ' ', '"', '1', '"', ',', ' ', '"', '2', '"', '}'] =
    [['"', ' ', '-', ' ', 'B', 'r', 'a', 'v', 'e'], ['1'], ['2']] := by decide

example :
    split ['{', '"', '👋', '"', '}', ',', ' ', '{', '"', '😾', '"', '}', ',',
      ' ', '{', '"', '🤮', '"', ',', ' ', '"', '🎃', '"', '}'] =
    [['👋'], ['😾'], ['🤮'], ['🎃']] := by decide

example : split ['{', '"', 'a', '"', ',', ' ', '"', 'b'] = [['a']] := by decide

example : split ['{', '}'] = [] := by decide

/-! ## Unfolding lemmas for the scanner -/

theorem scan_nil (st : Option (List Char)) : scan st [] = [] := by
  cases st <;> rfl

theorem scan_none_quote (rest : List Char) :
    scan none ('"' :: rest) = scan (some []) rest := by
  simp [scan]

theorem scan_none_other {c : Char} (h : c ≠ '"') (rest : List Char) :
    scan none (c :: rest) = scan none rest := by
  simp [scan, h]

theorem scan_some_close {acc : List Char} (h : acc.getLast? ≠ some '\\')
    (rest : List Char) :
    scan (some acc) ('"' :: rest) = unescape acc :: scan none rest := by
  simp [scan, h]

theorem scan_some_push {acc : List Char} {c : Char}
    (h : ¬(c = '"' ∧ acc.getLast? ≠ some '\\')) (rest : List Char) :
    scan (some acc) (c :: rest) = scan (some (acc ++ [c])) rest := by
  rw [scan, if_neg h]

/-! ## Junk outside quotes is skipped -/

theorem scan_junk {j : List Char} (hj : noQuote j = true) (rest : List Char) :
    scan none (j ++ rest) = scan none rest := by
  induction j with
  | nil => rfl
  | cons c j ih =>
    simp only [noQuote, List.all_cons, Bool.and_eq_true, decide_eq_true_eq] at hj
    rw [List.cons_append, scan_none_other hj.1]
    exact ih (by simpa [noQuote] using hj.2)

/-! ## Scanning a well-formed quoted segment -/

theorem scan_seg : ∀ (s : List Char), goodSeg s = true →
    ∀ (acc rest : List Char), (s = [] → acc.getLast? ≠ some '\\') →
    scan (some acc) (s ++ '"' :: rest) = unescape (acc ++ s) :: scan none rest := by
  intro s
  induction s using goodSeg.induct with
  | case1 =>
    intro _ acc rest hacc
    rw [List.nil_append, scan_some_close (hacc rfl), List.append_nil]
  | case2 c =>
    intro hg acc rest _
    simp only [goodSeg, Bool.and_eq_true, decide_eq_true_eq] at hg
    rw [List.cons_append, List.nil_append,
      scan_some_push (by simp [hg.1]),
      scan_some_close (by simp [hg.2])]
  | case3 d rest' =>
    intro hg
    simp [goodSeg] at hg
  | case4 rest' _ ih =>
    intro hg acc rest _
    simp only [goodSeg, if_neg (by decide : ¬('\\' : Char) = '"'), if_pos rfl] at hg
    rw [List.cons_append, List.cons_append,
      scan_some_push (by simp),
      scan_some_push (by simp),
      ih hg (acc ++ ['\\'] ++ ['"']) rest (by simp)]
    simp
  | case5 d rest' hd _ ih =>
    intro hg acc rest _
    simp only [goodSeg, if_neg (by decide : ¬('\\' : Char) = '"'), if_neg hd] at hg
    rw [List.cons_append, scan_some_push (by simp),
      ih hg (acc ++ ['\\']) rest (by simp)]
    simp
  | case6 c d rest' hc hbs ih =>
    intro hg acc rest _
    simp only [goodSeg, if_neg hc, if_neg hbs] at hg
    rw [List.cons_append, scan_some_push (by simp [hc]),
      ih hg (acc ++ [c]) rest (by simp)]
    simp

/-! ## Scanning a whole well-formed input -/

theorem scan_encodeInput :
    ∀ (segs : List (List Char × List Char)) (j0 rest : List Char),
    noQuote j0 = true → wellFormed segs = true →
    scan none (encodeInput j0 segs ++ rest) =
      segs.map (fun p => unescape p.1) ++ scan none rest := by
  intro segs
  induction segs with
  | nil =>
    intro j0 rest hj _
    simpa [encodeInput] using scan_junk hj rest
  | cons p segs ih =>
    obtain ⟨s, j⟩ := p
    intro j0 rest hj hw
    simp only [wellFormed, List.all_cons, Bool.and_eq_true] at hw
    obtain ⟨⟨hs, hjj⟩, hw'⟩ := hw
    have harr : encodeInput j0 ((s, j) :: segs) ++ rest =
        j0 ++ '"' :: (s ++ '"' :: (encodeInput j segs ++ rest)) := by
      simp [encodeInput]
    rw [harr, scan_junk hj, scan_none_quote,
      scan_seg s hs [] _ (by simp), ih j rest hjj (by simpa [wellFormed] using hw')]
    simp

/-! ## An unterminated trailing segment contributes nothing -/

theorem scan_neverCloses :
    ∀ (t acc : List Char), neverCloses acc t = true → scan (some acc) t = [] := by
  intro t
  induction t with
  | nil => intro acc _; rfl
  | cons c rest ih =>
    intro acc h
    by_cases hc : c = '"' ∧ acc.getLast? ≠ some '\\'
    · simp [neverCloses, hc] at h
    · rw [scan_some_push hc]
      apply ih
      simpa [neverCloses, hc] using h

/-! ## Properties of the unescaping step -/

theorem unescape_ne_nil : ∀ l : List Char, l ≠ [] → unescape l ≠ [] := by
  intro l
  induction l using unescape.induct with
  | case1 => intro h; exact absurd rfl h
  | case2 c => intro _; simp [unescape]
  | case3 c d rest h _ => intro _; simp [unescape, h]
  | case4 c d rest h _ => intro _; simp [unescape, h]

theorem unescape_no_bs : ∀ l : List Char, '\\' ∉ l → unescape l = l := by
  intro l
  induction l using unescape.induct with
  | case1 => intro _; rfl
  | case2 c => intro _; rfl
  | case3 c d rest h _ =>
    intro hmem
    exact absurd (by simp [h.1]) hmem
  | case4 c d rest h ih =>
    intro hmem
    rw [unescape, if_neg h, ih (fun hd => hmem (List.mem_cons_of_mem c hd))]

theorem getLast?_cons_ne_nil {c : Char} {l : List Char} (h : l ≠ []) :
    (c :: l).getLast? = l.getLast? := by
  cases l with
  | nil => exact absurd rfl h
  | cons d l' => exact List.getLast?_cons_cons

theorem unescape_getLast :
    ∀ l : List Char, l.getLast? ≠ some '\\' →
      (unescape l).getLast? ≠ some '\\' := by
  intro l
  induction l using unescape.induct with
  | case1 => intro h; exact h
  | case2 c => intro h; exact h
  | case3 c d rest h ih =>
    intro hl
    rw [unescape, if_pos h]
    cases rest with
    | nil => decide
    | cons e rest' =>
      rw [getLast?_cons_ne_nil (unescape_ne_nil _ (by simp))]
      exact ih (by simpa [List.getLast?_cons_cons] using hl)
  | case4 c d rest h ih =>
    intro hl
    rw [unescape, if_neg h,
      getLast?_cons_ne_nil (unescape_ne_nil _ (by simp))]
    exact ih (by simpa [List.getLast?_cons_cons] using hl)

/-! ## Titles emitted by the scanner never end in a backslash -/

theorem scan_no_trailing_bs :
    ∀ (l : List Char) (st : Option (List Char)) (t : List Char),
      t ∈ scan st l → t.getLast? ≠ some '\\' := by
  intro l
  induction l with
  | nil => intro st t ht; rw [scan_nil] at ht; exact absurd ht (List.not_mem_nil t)
  | cons c rest ih =>
    intro st t ht
    match st with
    | none =>
      by_cases hc : c = '"'
      · subst hc; rw [scan_none_quote] at ht; exact ih _ t ht
      · rw [scan_none_other hc] at ht; exact ih _ t ht
    | some acc =>
      by_cases hc : c = '"' ∧ acc.getLast? ≠ some '\\'
      · obtain ⟨rfl, hacc⟩ := hc
        rw [scan_some_close hacc] at ht
        rcases List.mem_cons.mp ht with rfl | ht'
        · exact unescape_getLast acc hacc
        · exact ih _ t ht'
      · rw [scan_some_push hc] at ht; exact ih _ t ht

/-! ## Properties of the re-encoding used in the round-trip claim -/

theorem escapeQuotes_eq_nil : ∀ t : List Char, escapeQuotes t = [] → t = [] := by
  intro t
  cases t with
  | nil => intro _; rfl
  | cons c rest =>
    intro h
    by_cases hc : c = '"' <;> simp [escapeQuotes, hc] at h

theorem escapeQuotes_head_ne :
    ∀ (t : List Char) (e : Char) (es : List Char),
      escapeQuotes t = e :: es → e ≠ '"' := by
  intro t e es
  cases t with
  | nil => intro h; simp [escapeQuotes] at h
  | cons c rest =>
    by_cases hc : c = '"'
    · rw [escapeQuotes, if_pos hc]
      intro h
      rw [← (List.cons_eq_cons.mp h).1]
      decide
    · rw [escapeQuotes, if_neg hc]
      intro h
      rw [← (List.cons_eq_cons.mp h).1]
      exact hc

theorem unescape_escapeQuotes : ∀ t : List Char, unescape (escapeQuotes t) = t := by
  intro t
  induction t with
  | nil => rfl
  | cons c rest ih =>
    by_cases hc : c = '"'
    · subst hc
      rw [escapeQuotes, if_pos rfl, unescape, if_pos ⟨rfl, rfl⟩, ih]
    · rw [escapeQuotes, if_neg hc]
      cases he : escapeQuotes rest with
      | nil =>
        rw [escapeQuotes_eq_nil rest he]
        rfl
      | cons e es =>
        rw [unescape, if_neg (fun hp => escapeQuotes_head_ne rest e es he hp.2),
          ← he, ih]

theorem goodSeg_escapeQuotes :
    ∀ t : List Char, t.getLast? ≠ some '\\' → goodSeg (escapeQuotes t) = true := by
  intro t
  induction t with
  | nil => intro _; rfl
  | cons c rest ih =>
    intro hl
    by_cases hc : c = '"'
    · subst hc
      rw [escapeQuotes, if_pos rfl]
      cases rest with
      | nil => rfl
      | cons e rest' =>
        show goodSeg (escapeQuotes (e :: rest')) = true
        exact ih (by simpa [List.getLast?_cons_cons] using hl)
    · rw [escapeQuotes, if_neg hc]
      cases he : escapeQuotes rest with
      | nil =>
        have : rest = [] := escapeQuotes_eq_nil rest he
        subst this
        simp only [List.getLast?_singleton, ne_eq, Option.some.injEq] at hl
        simp [goodSeg, hc, hl]
      | cons e es =>
        have hrest : rest ≠ [] := by
          intro h; subst h; simp [escapeQuotes] at he
        have hrl : rest.getLast? ≠ some '\\' := by
          cases rest with
          | nil => exact absurd rfl hrest
          | cons r rs => simpa [List.getLast?_cons_cons] using hl
        have hgood := ih hrl
        rw [he] at hgood
        have hene := escapeQuotes_head_ne rest e es he
        by_cases hbs : c = '\\'
        · rw [goodSeg, if_neg hc, if_pos hbs, if_neg hene]
          exact hgood
        · rw [goodSeg, if_neg hc, if_neg hbs]
          exact hgood

theorem encodeInput_reencode :
    ∀ ts : List (List Char),
      encodeInput [] (ts.map (fun t => (escapeQuotes t, []))) = reencode ts := by
  intro ts
  induction ts with
  | nil => rfl
  | cons t ts ih =>
    simp only [List.map_cons, encodeInput, List.nil_append, reencode,
      List.flatten_cons] at *
    rw [ih]
    simp [reencode]

/-! ## The scanner output is no longer than its input -/

theorem scan_length_le :
    ∀ (l : List Char) (st : Option (List Char)),
      (scan st l).length ≤ l.length := by
  intro l
  induction l with
  | nil => intro st; rw [scan_nil]; exact Nat.le_refl 0
  | cons c rest ih =>
    intro st
    match st with
    | none =>
      by_cases hc : c = '"'
      · subst hc
        rw [scan_none_quote]
        exact Nat.le_succ_of_le (ih _)
      · rw [scan_none_other hc]
        exact Nat.le_succ_of_le (ih _)
    | some acc =>
      by_cases hc : c = '"' ∧ acc.getLast? ≠ some '\\'
      · obtain ⟨rfl, hacc⟩ := hc
        rw [scan_some_close hacc]
        simpa using ih _
      · rw [scan_some_push hc]
        exact Nat.le_succ_of_le (ih _)

/-! ## Claim theorems -/

/-- C1: an input made of N well-formed, properly terminated quoted segments
interleaved with arbitrary quote-free junk parses to exactly N titles, in
left-to-right order of the segments; the junk has no effect on the output. -/
theorem split_wellFormed_segments (j0 : List Char)
    (segs : List (List Char × List Char))
    (hj0 : noQuote j0 = true) (hsegs : wellFormed segs = true) :
    split (encodeInput j0 segs) = segs.map (fun p => unescape p.1) ∧
    (split (encodeInput j0 segs)).length = segs.length := by
  have h := scan_encodeInput segs j0 [] hj0 hsegs
  rw [List.append_nil, scan_nil, List.append_nil] at h
  exact ⟨h, by rw [split, h, List.length_map]⟩

/-- Witness for C1 at the repository's own test input. -/
theorem split_wellFormed_segments_witness :
    split ['{', '{', '}', ',', ' ', '{', '"', '0', '"', '}', ',', ' ', '{',
      '"', '1', '"', ',', ' ', '"', '2', '"', '}', '}'] =
    [['0'], ['1'], ['2']] := by
  have h := (split_wellFormed_segments ['{', '{', '}', ',', ' ', '{']
    [(['0'], ['}', ',', ' ', '{']), (['1'], [',', ' ']), (['2'], ['}', '}'])]
    (by decide) (by decide)).1
  exact h

/-- C2: an input whose final quoted segment is opened but never closed
yields exactly the titles of the earlier well-formed segments; the partial
title is discarded and no error occurs. -/
theorem split_unterminated_tail (j0 : List Char)
    (segs : List (List Char × List Char)) (t : List Char)
    (hj0 : noQuote j0 = true) (hsegs : wellFormed segs = true)
    (ht : neverCloses [] t = true) :
    split (encodeInput j0 segs ++ '"' :: t) =
      segs.map (fun p => unescape p.1) := by
  rw [split, scan_encodeInput segs j0 _ hj0 hsegs, scan_none_quote,
    scan_neverCloses t [] ht, List.append_nil]

/-- Witness for C2 at the spec's example: the last segment of the input is
opened but never closed, so only the title `a` is returned. -/
theorem split_unterminated_tail_witness :
    split ['{', '"', 'a', '"', ',', ' ', '"', 'b'] = [['a']] := by
  have h := split_unterminated_tail ['{'] [(['a'], [',', ' '])] ['b']
    (by decide) (by decide) (by decide)
  exact h

/-- C3: inside a segment, a quote whose preceding raw accumulated character
is a backslash does not close the segment and is accumulated; decoding
replaces each backslash-quote pair by a literal quote; the spec's escaped
example parses accordingly. -/
theorem split_escaped_quote :
    (∀ (acc rest : List Char), acc.getLast? = some '\\' →
      scan (some acc) ('"' :: rest) = scan (some (acc ++ ['"'])) rest) ∧
    (∀ rest : List Char, unescape ('\\' :: '"' :: rest) = '"' :: unescape rest) ∧
    split ['{', '"', '\\', '"', ' ', '-', ' ', 'B', 'r', 'a', 'v', 'e', '"',
        ',', ' ', '"', '1', '"', ',', ' ', '"', '2', '"', '}'] =
      [['"', ' ', '-', ' ', 'B', 'r', 'a', 'v', 'e'], ['1'], ['2']] := by
  refine ⟨?_, ?_, by decide⟩
  · intro acc rest h
    exact @scan_some_push acc '"' (by simp [h]) rest
  · intro rest
    rw [unescape, if_pos ⟨rfl, rfl⟩]

/-- Witness for C3: an escaped quote is pushed onto the accumulator rather
than closing the title. -/
theorem split_escaped_quote_witness :
    scan (some ['\\']) ['"'] = scan (some ['\\', '"']) [] :=
  split_escaped_quote.1 ['\\'] [] (by decide)

/-- C4: `window_titles` returns `ExecuteFailed` exactly when the spawn
fails; when the tool ran and its stderr contains the permission substring
it returns `NoAccessibilityPermission` regardless of exit status and
stdout; in every other case it returns `Ok` with the parsed stdout. -/
theorem window_titles_cases :
    (∀ r : Option CommandOutput,
      window_titles r = Except.error WindowTitleError.ExecuteFailed ↔
        r = none) ∧
    (∀ out : CommandOutput, containsSub permissionError out.stderr = true →
      window_titles (some out) =
        Except.error WindowTitleError.NoAccessibilityPermission) ∧
    (∀ out : CommandOutput, containsSub permissionError out.stderr = false →
      window_titles (some out) = Except.ok (split out.stdout)) := by
  refine ⟨?_, ?_, ?_⟩
  · intro r
    constructor
    · intro h
      match r with
      | none => rfl
      | some out =>
        rw [window_titles] at h
        by_cases hc : containsSub permissionError out.stderr = true
        · rw [if_pos hc] at h
          injection h with h'
          exact WindowTitleError.noConfusion h'
        · rw [if_neg hc] at h
          exact Except.noConfusion h
    · intro h
      rw [h, window_titles]
  · intro out hc
    rw [window_titles, if_pos hc]
  · intro out hc
    rw [window_titles, if_neg (by rw [hc]; exact Bool.false_ne_true)]

/-- Witness for C4: a stderr equal to the permission substring is
classified `NoAccessibilityPermission` even with exit status 0 and
non-empty stdout, and a quiet stderr yields the parsed titles. -/
theorem window_titles_cases_witness :
    window_titles (some ⟨0, ['"', 'a', '"'], permissionError⟩) =
      Except.error WindowTitleError.NoAccessibilityPermission ∧
    window_titles (some ⟨0, ['"', 'a', '"'], []⟩) = Except.ok [['a']] := by
  constructor
  · exact window_titles_cases.2.1 ⟨0, ['"', 'a', '"'], permissionError⟩
      (by decide)
  · exact window_titles_cases.2.2 ⟨0, ['"', 'a', '"'], []⟩ (by decide)

/-- C5: `split` is total — it is defined on every input (the embedding is a
terminating total function) and returns a title list, never an error; the
list is moreover no longer than the input. -/
theorem split_total (l : List Char) :
    ∃ ts : List (List Char), split l = ts ∧ ts.length ≤ l.length :=
  ⟨split l, rfl, scan_length_le l none⟩

/-- C6: re-encoding the output of `split` (wrapping each title in quotes
with internal quotes escaped, then concatenating) and parsing again
reproduces the same title list. -/
theorem split_reencode (l : List Char) :
    split (reencode (split l)) = split l := by
  have hwf : wellFormed ((split l).map (fun t => (escapeQuotes t, []))) = true := by
    rw [wellFormed, List.all_eq_true]
    intro p hp
    rw [List.mem_map] at hp
    obtain ⟨t, ht, rfl⟩ := hp
    rw [Bool.and_eq_true]
    exact ⟨goodSeg_escapeQuotes t (scan_no_trailing_bs l none t ht), rfl⟩
  have h := scan_encodeInput ((split l).map fun t => (escapeQuotes t, []))
    [] [] rfl hwf
  rw [List.append_nil, encodeInput_reencode, scan_nil, List.append_nil,
    List.map_map] at h
  show scan none (reencode (split l)) = split l
  rw [h]
  conv_rhs => rw [← List.map_id (split l)]
  exact List.map_congr_left fun t _ => unescape_escapeQuotes t

/-- C7: the scanner works one Unicode scalar value at a time, and content
inside a segment that contains no backslash (hence no escape pair) appears
unchanged in the emitted title; the spec's emoji example parses to the four
emoji titles. -/
theorem split_unicode :
    (∀ s : List Char, '\\' ∉ s → unescape s = s) ∧
    (∀ (s rest : List Char), goodSeg s = true → '\\' ∉ s →
      split ('"' :: s ++ '"' :: rest) = s :: split rest) ∧
    split ['{', '"', '👋', '"', '}', ',', ' ', '{', '"', '😾', '"', '}', ',',
        ' ', '{', '"', '🤮', '"', ',', ' ', '"', '🎃', '"', '}'] =
      [['👋'], ['😾'], ['🤮'], ['🎃']] := by
  refine ⟨unescape_no_bs, ?_, by decide⟩
  intro s rest hs hbs
  show scan none ('"' :: (s ++ '"' :: rest)) = s :: split rest
  rw [scan_none_quote, scan_seg s hs [] rest (by simp), List.nil_append,
    unescape_no_bs s hbs]
  rfl

/-- Witness for C7: a single-emoji segment is passed through unchanged. -/
theorem split_unicode_witness : split ['"', '🦀', '"'] = [['🦀']] := by
  have h := split_unicode.2.1 ['🦀'] [] (by decide) (by decide)
  exact h

/-- C8: an empty quoted pair yields an empty-string title in its position
of appearance, and an input with no quotes at all yields the empty list. -/
theorem split_empty_pair :
    (∀ (j rest : List Char), noQuote j = true →
      split (j ++ '"' :: '"' :: rest) = [] :: split rest) ∧
    split ['{', '}'] = [] := by
  refine ⟨?_, by decide⟩
  intro j rest hj
  show scan none (j ++ '"' :: '"' :: rest) = [] :: split rest
  rw [scan_junk hj, scan_none_quote, scan_some_close (by simp)]
  rfl

/-- Witness for C8: an empty pair inside braces yields one empty title. -/
theorem split_empty_pair_witness : split ['{', '"', '"', '}'] = [[]] := by
  have h := split_empty_pair.1 ['{'] ['}'] (by decide)
  exact h

/-- C9: no title returned by `split` ends with a backslash: the closing
quote requires the preceding raw character not to be a backslash, and the
decoding step cannot create a trailing backslash. -/
theorem split_no_trailing_backslash (l t : List Char) (ht : t ∈ split l) :
    t.getLast? ≠ some '\\' :=
  scan_no_trailing_bs l none t ht

/-- Witness for C9 at a concrete parse. -/
theorem split_no_trailing_backslash_witness :
    ['x'] ∈ split ['"', 'x', '"'] ∧
      (['x'] : List Char).getLast? ≠ some '\\' :=
  ⟨by decide, split_no_trailing_backslash ['"', 'x', '"'] ['x'] (by decide)⟩

/-- C10: on the macOS variant, `Connection::new` is infallible and pure: it
returns `Ok` with the zero-field `Connection` value. -/
theorem connection_new_infallible :
    Connection.new = Except.ok Connection.mk := rfl
